import Mathlib

/-!
Shallow embedding of the field-aware evaluation engine of `eval-script-2.py`
(Kleros Scout AI benchmarking tool), together with proofs about it.

Python strings are modelled as lists of characters, Python ints as `Nat`,
Python float arithmetic on the metric values as exact arithmetic in `ℚ`
(and in `ℝ` where a square root occurs).  A Python expression that can raise
is modelled in `Except String`.

The script delegates string similarity to `difflib.SequenceMatcher(None, a, b)`
from the CPython standard library, so that algorithm (its dynamic-programming
longest-match search, the two non-junk extension loops, the autojunk
heuristic, and the recursive block splitting of `get_matching_blocks`) is
embedded here as well; the junk set is empty because the script passes
`isjunk=None`, so the two junk extension loops of `find_longest_match` are
unreachable and are omitted.
-/

set_option maxHeartbeats 1000000

namespace ScoutEval

/-- A piece of Python text, modelled as its list of characters. -/
abbrev PyStr := List Char

/-- `text.lower()`; ASCII case folding, which covers the repository's data. -/
def lower (s : PyStr) : PyStr := s.map Char.toLower

/-- `s[i]` for an index that is in bounds at every use site. -/
def ch (s : PyStr) (i : Nat) : Char := s.getD i ' '

/-- The ascending list of indices `j` with `b[j] = c`: the entry `b2j[c]`
built by `SequenceMatcher.__chain_b` before the autojunk filtering. -/
def positions (b : PyStr) (c : Char) : List Nat :=
  (List.range b.length).filter fun j => ch b j == c

/-- The autojunk condition of `SequenceMatcher.__chain_b`: for `len(b) >= 200`,
a character occurring more than `len(b) // 100 + 1` times is "popular" and its
entry is deleted from `b2j`. -/
def popularChar (b : PyStr) (c : Char) : Prop :=
  200 ≤ b.length ∧ b.length / 100 + 1 < (positions b c).length

instance (b : PyStr) (c : Char) : Decidable (popularChar b c) := by
  unfold popularChar; infer_instance

/-- `b2j[c]` as `find_longest_match` sees it (`isjunk=None`, `autojunk=True`). -/
def b2j (b : PyStr) (c : Char) : List Nat :=
  if popularChar b c then [] else positions b c

/-- The chain value `k = j2lenget(j-1, 0) + 1` read by the inner loop of
`find_longest_match` from the previous row; for `j = 0` the key `-1` is never
present, hence the `j = 0` case. -/
def chainVal (j2len : Nat → Nat) (j : Nat) : Nat :=
  (if j = 0 then 0 else j2len (j - 1)) + 1

/-- The inner loop of `find_longest_match` over `b2j[a[i]]`: `j2len` is the
previous row, `acc` is `newj2len`, and `best` is `(besti, bestj, bestsize)`.
`continue`/`break` mirror the Python tests `j < blo` / `j >= bhi`, and the
best triple is replaced by `(i-k+1, j-k+1, k)` whenever `k > bestsize`. -/
def innerLoop (j2len : Nat → Nat) (i blo bhi : Nat) :
    List Nat → (Nat → Nat) → Nat × Nat × Nat → (Nat → Nat) × (Nat × Nat × Nat)
  | [], acc, best => (acc, best)
  | j :: js, acc, best =>
    if j < blo then innerLoop j2len i blo bhi js acc best
    else if bhi ≤ j then (acc, best)
    else
      innerLoop j2len i blo bhi js
        (fun j' => if j' = j then chainVal j2len j else acc j')
        (if best.2.2 < chainVal j2len j then
          (i + 1 - chainVal j2len j, j + 1 - chainVal j2len j, chainVal j2len j)
         else best)

/-- One round of the outer `for i in range(alo, ahi)` loop of
`find_longest_match`: the first component of the state is `j2len`, the second
the current best match; `newj2len` starts empty in every round. -/
def dpRound (a b : PyStr) (blo bhi : Nat)
    (st : (Nat → Nat) × (Nat × Nat × Nat)) (i : Nat) :
    (Nat → Nat) × (Nat × Nat × Nat) :=
  innerLoop st.1 i blo bhi (b2j b (ch a i)) (fun _ => 0) st.2

/-- The full dynamic-programming pass of `find_longest_match`. -/
def dpBest (a b : PyStr) (alo ahi blo bhi : Nat) :
    (Nat → Nat) × (Nat × Nat × Nat) :=
  (List.range' alo (ahi - alo)).foldl (dpRound a b blo bhi) (fun _ => 0, (alo, blo, 0))

/-- First extension loop of `find_longest_match`: extend the best match
leftwards while the adjacent characters agree (`while besti > alo and
bestj > blo and a[besti-1] == b[bestj-1]`; the junk test is vacuous).
Structural recursion on `besti`, which strictly decreases; at `besti = 0`
the Python condition `besti > alo` is false. -/
def extLeft (a b : PyStr) (alo blo : Nat) : Nat → Nat → Nat → Nat × Nat × Nat
  | 0, j, k => (0, j, k)
  | i + 1, j, k =>
    if alo < i + 1 ∧ blo < j ∧ ch a i = ch b (j - 1) then
      extLeft a b alo blo i (j - 1) (k + 1)
    else (i + 1, j, k)

/-- Second extension loop, rightwards, on fuel `ahi - (besti + bestsize)`:
the fuel is `0` exactly when the Python condition `besti+bestsize < ahi`
is false, and each pass decrements it by exactly one, so the recursion
reproduces the `while` loop step for step. -/
def extRightAux (a b : PyStr) (ahi bhi i j : Nat) : Nat → Nat → Nat
  | 0, k => k
  | fuel + 1, k =>
    if i + k < ahi ∧ j + k < bhi ∧ ch a (i + k) = ch b (j + k) then
      extRightAux a b ahi bhi i j fuel (k + 1)
    else k

/-- `while besti+bestsize < ahi and bestj+bestsize < bhi and a[...] == b[...]`. -/
def extRight (a b : PyStr) (ahi bhi i j k : Nat) : Nat :=
  extRightAux a b ahi bhi i j (ahi - (i + k)) k

/-- `SequenceMatcher.find_longest_match(alo, ahi, blo, bhi)` with `isjunk=None`:
the DP pass, then the two (non-junk) extension loops. -/
def find_longest_match (a b : PyStr) (alo ahi blo bhi : Nat) : Nat × Nat × Nat :=
  let best := (dpBest a b alo ahi blo bhi).2
  let m := extLeft a b alo blo best.1 best.2.1 best.2.2
  (m.1, m.2.1, extRight a b ahi bhi m.1 m.2.1 m.2.2)

/-- Total size of the blocks produced by `get_matching_blocks`, which
recursively splits the region around each longest match (a region is pushed
only under `alo < i and blo < j`, resp. `i+k < ahi and j+k < bhi`); `ratio`
consumes only this total.  The recursion is driven by fuel: each split
strictly shrinks `(ahi - alo) + (bhi - blo)` by at least the (positive)
match size on both sides, so fuel initialised to that sum never runs out. -/
def matchedCharsAux (a b : PyStr) : Nat → Nat → Nat → Nat → Nat → Nat
  | 0, _, _, _, _ => 0
  | fuel + 1, alo, ahi, blo, bhi =>
    (fun m =>
      if m.2.2 = 0 then 0
      else
        m.2.2
        + (if alo < m.1 ∧ blo < m.2.1 then
            matchedCharsAux a b fuel alo m.1 blo m.2.1 else 0)
        + (if m.1 + m.2.2 < ahi ∧ m.2.1 + m.2.2 < bhi then
            matchedCharsAux a b fuel (m.1 + m.2.2) ahi (m.2.1 + m.2.2) bhi else 0))
    (find_longest_match a b alo ahi blo bhi)

/-- `sum(size for block in get_matching_blocks())` over the whole strings. -/
def matchedChars (a b : PyStr) : Nat :=
  matchedCharsAux a b (a.length + b.length) 0 a.length 0 b.length

/-- `SequenceMatcher.ratio()`, via `_calculate_ratio(matches, len(a)+len(b))`:
`2.0 * matches / length` and `1.0` for two empty sequences. -/
def ratio (a b : PyStr) : ℚ :=
  if a.length + b.length = 0 then 1
  else 2 * (matchedChars a b : ℚ) / (a.length + b.length)

/-- `calculate_similarity(text1, text2)`:
`SequenceMatcher(None, text1.lower(), text2.lower()).ratio()`. -/
def calculate_similarity (text1 text2 : PyStr) : ℚ :=
  ratio (lower text1) (lower text2)

/-! ### Bag-of-words cosine similarity (`calculate_cosine_similarity`) -/

/-- A `\w` character of the tokenizer pattern (ASCII model). -/
def wordChar (c : Char) : Bool := c.isAlphanum || c = '_'

/-- Worker for the analyzer of `CountVectorizer(token_pattern=r'(?u)\b\w+\b')`:
splits the text into maximal runs of word characters.  `cur` is the run
currently being read, in reverse. -/
def tokensAux : List Char → List Char → List (List Char)
  | cur, [] => if cur = [] then [] else [cur.reverse]
  | cur, c :: cs =>
    if wordChar c then tokensAux (c :: cur) cs
    else if cur = [] then tokensAux [] cs else cur.reverse :: tokensAux [] cs

/-- The token stream of one document. -/
def tokens (s : PyStr) : List (List Char) := tokensAux [] s

def dotProd : List Nat → List Nat → Nat
  | x :: xs, y :: ys => x * y + dotProd xs ys
  | _, _ => 0

/-- Term-frequency vector of a token stream over the vocabulary `voc`. -/
def countVec (toks voc : List (List Char)) : List Nat :=
  voc.map fun w => toks.count w

/-- Cosine similarity of two count vectors as computed by
`sklearn.metrics.pairwise.cosine_similarity`: each vector is divided by its
Euclidean norm — sklearn's `normalize` replaces a zero norm by `1`, leaving
the zero row untouched — and the normalized vectors are dotted. -/
noncomputable def cosineOfCounts (v w : List Nat) : ℝ :=
  (dotProd v w : ℝ) /
    ((if Real.sqrt (dotProd v v) = 0 then 1 else Real.sqrt (dotProd v v)) *
     (if Real.sqrt (dotProd w w) = 0 then 1 else Real.sqrt (dotProd w w)))

/-- `calculate_cosine_similarity(text1, text2)`: lowercase, tokenize on word
boundaries, build term-frequency vectors over the vocabulary of the
two-string corpus, return their cosine similarity.  When neither string
yields a token, `CountVectorizer.fit_transform` raises `ValueError: empty
vocabulary`, the bare `except` catches it, and `0.0` is returned; that
`except` is the only failure path of the Python function.  (The vectorizer's
own lowercasing is idempotent here, the texts being already lowercased.) -/
noncomputable def calculate_cosine_similarity (text1 text2 : PyStr) : ℝ :=
  if tokens (lower text1) = [] ∧ tokens (lower text2) = [] then 0
  else
    cosineOfCounts
      (countVec (tokens (lower text1))
        ((tokens (lower text1) ++ tokens (lower text2)).dedup))
      (countVec (tokens (lower text2))
        ((tokens (lower text1) ++ tokens (lower text2)).dedup))

/-! ### Field comparators -/

/-- Verdict dictionary of `evaluate_exact_field`. -/
structure ExactVerdict where
  exact_match : Nat
  ground_truth : PyStr
  prediction : PyStr

/-- Verdict dictionary of `evaluate_ner_field`. -/
structure NerVerdict where
  exact_match : Nat
  near_match : Nat
  similarity : ℚ
  ground_truth : PyStr
  prediction : PyStr

/-- Verdict dictionary of `evaluate_semantic_field`; note that it has no
`exact_match` field. -/
structure SemanticVerdict where
  similarity : ℝ
  meets_threshold : Nat
  ground_truth : PyStr
  prediction : PyStr

/-- `evaluate_exact_field(gt, pred)`. -/
def evaluate_exact_field (gt pred : PyStr) : ExactVerdict :=
  { exact_match := if lower gt = lower pred then 1 else 0
    ground_truth := gt
    prediction := pred }

/-- `evaluate_ner_field(gt, pred)`; the Python float literal `0.9` denotes
the threshold `9/10`. -/
def evaluate_ner_field (gt pred : PyStr) : NerVerdict :=
  { exact_match := if lower gt = lower pred then 1 else 0
    near_match := if (9 : ℚ) / 10 < calculate_similarity gt pred then 1 else 0
    similarity := calculate_similarity gt pred
    ground_truth := gt
    prediction := pred }

open Classical in
/-- `evaluate_semantic_field(gt, pred)` (threshold lowered from 0.85 to 0.5
in the source). -/
noncomputable def evaluate_semantic_field (gt pred : PyStr) : SemanticVerdict :=
  { similarity := calculate_cosine_similarity gt pred
    meets_threshold := if (1 : ℝ) / 2 ≤ calculate_cosine_similarity gt pred then 1 else 0
    ground_truth := gt
    prediction := pred }

/-- `calculate_f1_score(precision, recall)`. -/
def calculate_f1_score (precision recall' : ℚ) : ℚ :=
  if precision + recall' = 0 then 0
  else 2 * (precision * recall') / (precision + recall')

/-! ### Dataset evaluator -/

/-- A record: a JSON object mapping field names to string values. -/
abbrev Record := List (String × PyStr)

/-- `entry.get(field, "")`. -/
def dictGet (r : Record) (k : String) : PyStr :=
  match r.lookup k with
  | some v => v
  | none => []

/-- One entry of `FIELD_DEFINITIONS`. -/
structure FieldDef where
  type : String
  is_identifier : Bool
  evaluation : String
deriving DecidableEq

/-- The `FIELD_DEFINITIONS` table, in its Python insertion order. -/
def FIELD_DEFINITIONS : List (String × FieldDef) :=
  [("Contract Address", ⟨"rich_address", true, "exact"⟩),
   ("Public Name Tag", ⟨"text", true, "ner"⟩),
   ("Project Name", ⟨"text", true, "ner"⟩),
   ("UI/Website Link", ⟨"link", true, "exact"⟩),
   ("Public Note", ⟨"text", false, "semantic"⟩)]

/-- A per-field verdict as stored in `entry_results`. -/
inductive FieldVerdict where
  | exactF : ExactVerdict → FieldVerdict
  | nerF : NerVerdict → FieldVerdict
  | semanticF : SemanticVerdict → FieldVerdict

/-- The per-field accumulator `{"exact": 0, "near": 0, "total": 0}`. -/
structure Metrics where
  exact : Nat
  near : Nat
  total : Nat

/-- The body of the inner `for field, definition in FIELD_DEFINITIONS.items()`
loop of `evaluate_dataset`: dispatch on the declared strategy, bump this
field's counters (for `exact` fields Python adds `exact_match` to both the
`exact` and the `near` counter), then `total += 1`, and record the verdict. -/
noncomputable def processField (gt_entry pred_entry : Record)
    (st : (String → Metrics) × List (String × FieldVerdict))
    (fd : String × FieldDef) :
    (String → Metrics) × List (String × FieldVerdict) :=
  let gt_value := dictGet gt_entry fd.1
  let pred_value := dictGet pred_entry fd.1
  let m := st.1 fd.1
  let step : Metrics × FieldVerdict :=
    if fd.2.evaluation = "exact" then
      let result := evaluate_exact_field gt_value pred_value
      (⟨m.exact + result.exact_match, m.near + result.exact_match, m.total⟩,
        .exactF result)
    else if fd.2.evaluation = "ner" then
      let result := evaluate_ner_field gt_value pred_value
      (⟨m.exact + result.exact_match, m.near + result.near_match, m.total⟩,
        .nerF result)
    else
      let result := evaluate_semantic_field gt_value pred_value
      (⟨m.exact, m.near + result.meets_threshold, m.total⟩, .semanticF result)
  (fun f => if f = fd.1 then ⟨step.1.exact, step.1.near, step.1.total + 1⟩ else st.1 f,
    st.2 ++ [(fd.1, step.2)])

/-- Processing of one `(gt_entry, pred_entry)` pair: fold the schema fields. -/
noncomputable def processEntry (fm : String → Metrics) (gt_entry pred_entry : Record) :
    (String → Metrics) × List (String × FieldVerdict) :=
  FIELD_DEFINITIONS.foldl (processField gt_entry pred_entry) (fm, [])

/-- The body of the main `for idx, (gt_entry, pred_entry) in enumerate(zip(...))`
loop: thread the accumulators, append this entry's verdicts to `results`. -/
noncomputable def runStep (st : (String → Metrics) × List (List (String × FieldVerdict)))
    (pair : Record × Record) :
    (String → Metrics) × List (List (String × FieldVerdict)) :=
  ((processEntry st.1 pair.1 pair.2).1,
   st.2 ++ [(processEntry st.1 pair.1 pair.2).2])

/-- The main loop of `evaluate_dataset`, starting from the fresh accumulators
`{field: {"exact": 0, "near": 0, "total": 0} for field in FIELD_DEFINITIONS}`
and the empty `results` list. -/
noncomputable def runLoop (pairs : List (Record × Record)) :
    (String → Metrics) × List (List (String × FieldVerdict)) :=
  pairs.foldl runStep (fun _ => ⟨0, 0, 0⟩, [])

/-- Python's `x / y` on the accumulated counts: raises `ZeroDivisionError`
on a zero denominator. -/
def pyDiv (num den : Nat) : Except String ℚ :=
  if den = 0 then .error "ZeroDivisionError" else .ok ((num : ℚ) / den)

/-- `precision = metrics["exact"] / metrics["total"] if metrics["total"] > 0 else 0`. -/
def aggPrecision (m : Metrics) : ℚ :=
  if 0 < m.total then (m.exact : ℚ) / m.total else 0

/-- `recall = metrics["near"] / metrics["total"] if metrics["total"] > 0 else 0`. -/
def aggRecall (m : Metrics) : ℚ :=
  if 0 < m.total then (m.near : ℚ) / m.total else 0

/-- One field's entry of `aggregate_results`. -/
inductive AggregateMetric where
  | exactNer (precision recall' f1_score exact_match_rate : ℚ)
  | semanticRate (semantic_similarity_rate : ℚ)

/-- One iteration of the aggregate pass: for `exact`/`ner` fields the guarded
`precision`/`recall` and the `f1` are computed first, then the dict literal
evaluates the unguarded `metrics["exact"] / metrics["total"]`; for semantic
fields the dict literal evaluates the unguarded
`metrics["near"] / metrics["total"]`. -/
def aggregateField (definition : FieldDef) (m : Metrics) : Except String AggregateMetric :=
  if definition.evaluation = "exact" ∨ definition.evaluation = "ner" then
    match pyDiv m.exact m.total with
    | .ok rate =>
        .ok (.exactNer (aggPrecision m) (aggRecall m)
          (calculate_f1_score (aggPrecision m) (aggRecall m)) rate)
    | .error e => .error e
  else
    match pyDiv m.near m.total with
    | .ok rate => .ok (.semanticRate rate)
    | .error e => .error e

/-- The `for field, metrics in field_metrics.items()` aggregate pass;
`field_metrics` has exactly the keys of `FIELD_DEFINITIONS` in the same
insertion order, and `definition = FIELD_DEFINITIONS[field]`. -/
def aggregatePass (fm : String → Metrics) :
    Except String (List (String × AggregateMetric)) :=
  FIELD_DEFINITIONS.mapM fun fd =>
    match aggregateField fd.2 (fm fd.1) with
    | .ok am => .ok (fd.1, am)
    | .error e => .error e

/-- The value returned by `evaluate_dataset`. -/
structure Report where
  individual_results : List (List (String × FieldVerdict))
  aggregate_results : List (String × AggregateMetric)

/-- `evaluate_dataset(ground_truth, predictions)`: iterate over
`zip(ground_truth, predictions)` (the shortest paired prefix), then run the
aggregate pass; an uncaught `ZeroDivisionError` of the aggregate pass
propagates to the caller. -/
noncomputable def evaluate_dataset (ground_truth predictions : List Record) :
    Except String Report :=
  match aggregatePass (runLoop (ground_truth.zip predictions)).1 with
  | .ok agg => .ok ⟨(runLoop (ground_truth.zip predictions)).2, agg⟩
  | .error e => .error e

/-- The field accumulators after the main loop of
`evaluate_dataset(ground_truth, predictions)`. -/
noncomputable def runMetrics (ground_truth predictions : List Record) :
    String → Metrics :=
  (runLoop (ground_truth.zip predictions)).1

/-! ### Proof-support definitions for the self-similarity analysis -/

/-- Length of the maximal suffix of `s[0..i]` made of non-popular characters:
the value of the diagonal DP chain ending at `(i, i)` when `s` is matched
against itself. -/
def npr (s : PyStr) : Nat → Nat
  | 0 => if popularChar s (ch s 0) then 0 else 1
  | i + 1 => if popularChar s (ch s (i + 1)) then 0 else npr s i + 1

/-- `npr` at the index before `i` (`0` before round `0`): a bound for the DP
row entries entering round `i`. -/
def prevNpr (s : PyStr) : Nat → Nat
  | 0 => 0
  | r + 1 => npr s r

/-- Invariant of the DP state before round `i` when matching `s` against
itself over the full ranges: the best match lies on the diagonal and fits in
the string, its size dominates every non-popular run seen so far, and the
row entries are bounded by the diagonal chain values, the entry at `i - 1`
being exactly the diagonal chain value there. -/
structure DiagInv (s : PyStr) (i : Nat) (st : (Nat → Nat) × (Nat × Nat × Nat)) : Prop where
  diag : st.2.1 = st.2.2.1
  size_le : st.2.1 + st.2.2.2 ≤ s.length
  best_ge : ∀ r, r < i → npr s r ≤ st.2.2.2
  map_le_npr : ∀ j, st.1 j ≤ npr s j
  map_le_prev : ∀ j, st.1 j ≤ prevNpr s i
  map_diag : ∀ r, i = r + 1 → st.1 r = npr s r

/-! ## Lemmas about the similarity primitive -/

theorem positions_mem {b : PyStr} {c : Char} {j : Nat} :
    j ∈ positions b c ↔ j < b.length ∧ ch b j = c := by
  simp [positions, List.mem_filter, List.mem_range]

theorem npr_of_pop {s : PyStr} {i : Nat} (h : popularChar s (ch s i)) :
    npr s i = 0 := by
  cases i <;> simp [npr, h]

theorem npr_zero {s : PyStr} (h : ¬ popularChar s (ch s 0)) : npr s 0 = 1 := by
  simp [npr, h]

theorem npr_succ {s : PyStr} {i : Nat} (h : ¬ popularChar s (ch s (i + 1))) :
    npr s (i + 1) = npr s i + 1 := by
  simp [npr, h]

theorem npr_pos {s : PyStr} {i : Nat} (h : ¬ popularChar s (ch s i)) :
    1 ≤ npr s i := by
  cases i with
  | zero => simp [npr, h]
  | succ t => simp [npr, h]

theorem npr_eq_prev {s : PyStr} {i : Nat} (h : ¬ popularChar s (ch s i)) :
    npr s i = prevNpr s i + 1 := by
  cases i with
  | zero => simp [npr, prevNpr, h]
  | succ t => simp [npr, prevNpr, h]

theorem npr_le (s : PyStr) : ∀ i, npr s i ≤ i + 1
  | 0 => by unfold npr; split <;> omega
  | i + 1 => by
    have h := npr_le s i
    unfold npr; split <;> omega

/-- Splitting `b2j s (s[i])` around the diagonal index `i` when `s[i]` is not
popular: it is the filtered range below `i`, then `i`, then the filtered
range above `i`. -/
theorem b2j_self_decomp (s : PyStr) (i : Nat) (hin : i < s.length)
    (hpop : ¬ popularChar s (ch s i)) :
    b2j s (ch s i) =
      ((List.range i).filter fun j => ch s j == ch s i)
        ++ i :: ((List.range' (i + 1) (s.length - (i + 1))).filter
            fun j => ch s j == ch s i) := by
  rw [b2j, if_neg hpop, positions]
  have h1 : List.range' 0 i ++ List.range' i (s.length - i) = List.range' 0 s.length := by
    have h := List.range'_append 0 i (s.length - i) 1
    simp only [Nat.zero_add, Nat.one_mul] at h
    rw [h]
    congr 1
    omega
  have h2 : List.range' i (s.length - i) = i :: List.range' (i + 1) (s.length - (i + 1)) := by
    have h := List.range'_succ i (s.length - (i + 1)) 1
    rw [show s.length - i = s.length - (i + 1) + 1 by omega, h]
  rw [List.range_eq_range', ← h1, h2, List.filter_append, List.range_eq_range']
  rw [List.filter_cons_of_pos (by simp)]

theorem innerLoop_nil (m : Nat → Nat) (i blo bhi : Nat) (acc : Nat → Nat)
    (best : Nat × Nat × Nat) : innerLoop m i blo bhi [] acc best = (acc, best) := rfl

theorem innerLoop_cons (m : Nat → Nat) (i blo bhi j : Nat) (js : List Nat)
    (acc : Nat → Nat) (best : Nat × Nat × Nat) :
    innerLoop m i blo bhi (j :: js) acc best =
      if j < blo then innerLoop m i blo bhi js acc best
      else if bhi ≤ j then (acc, best)
      else
        innerLoop m i blo bhi js
          (fun j' => if j' = j then chainVal m j else acc j')
          (if best.2.2 < chainVal m j then
            (i + 1 - chainVal m j, j + 1 - chainVal m j, chainVal m j)
           else best) := rfl

/-- Processing a run of indices none of which can improve on the current best:
the best is unchanged and every row entry is either untouched or set to its
chain value. -/
theorem innerLoop_noupdate (m : Nat → Nat) (i blo bhi : Nat) (js : List Nat) :
    ∀ (acc : Nat → Nat) (best : Nat × Nat × Nat),
    (∀ j ∈ js, blo ≤ j ∧ j < bhi ∧ chainVal m j ≤ best.2.2) →
    (innerLoop m i blo bhi js acc best).2 = best ∧
    ∀ j', (innerLoop m i blo bhi js acc best).1 j' = acc j' ∨
      ((innerLoop m i blo bhi js acc best).1 j' = chainVal m j' ∧ j' ∈ js) := by
  induction js with
  | nil => intro acc best _; simp [innerLoop_nil]
  | cons j js ih =>
    intro acc best h
    obtain ⟨h1, h2, h3⟩ := h j (List.mem_cons_self _ _)
    have hnblo : ¬ j < blo := by omega
    have hnb : ¬ bhi ≤ j := by omega
    have hnk : ¬ best.2.2 < chainVal m j := by omega
    rw [innerLoop_cons, if_neg hnblo, if_neg hnb, if_neg hnk]
    obtain ⟨ha, hb⟩ := ih _ best (fun j' hj' => h j' (List.mem_cons_of_mem _ hj'))
    refine ⟨ha, fun j' => ?_⟩
    rcases hb j' with hc | hc
    · rw [hc]
      by_cases hj : j' = j
      · subst hj
        right
        exact ⟨if_pos rfl, List.mem_cons_self _ _⟩
      · left
        exact if_neg hj
    · right
      exact ⟨hc.1, List.mem_cons_of_mem _ hc.2⟩

/-- Splitting the inner loop at a list append when no index can trigger the
`break`. -/
theorem innerLoop_append (m : Nat → Nat) (i blo bhi : Nat) (xs : List Nat) :
    ∀ (ys : List Nat) (acc : Nat → Nat) (best : Nat × Nat × Nat),
    (∀ j ∈ xs, j < bhi) →
    innerLoop m i blo bhi (xs ++ ys) acc best =
      innerLoop m i blo bhi ys (innerLoop m i blo bhi xs acc best).1
        (innerLoop m i blo bhi xs acc best).2 := by
  induction xs with
  | nil => intro ys acc best _; simp [innerLoop_nil]
  | cons x xs ih =>
    intro ys acc best h
    have hx := h x (List.mem_cons_self _ _)
    have hrest := fun j hj => h j (List.mem_cons_of_mem _ hj)
    rcases Nat.lt_or_ge x blo with hblo | hblo
    · rw [List.cons_append, innerLoop_cons, if_pos hblo,
        innerLoop_cons, if_pos hblo]
      exact ih ys acc best hrest
    · have hnblo : ¬ x < blo := by omega
      have hnb : ¬ bhi ≤ x := by omega
      rw [List.cons_append, innerLoop_cons, if_neg hnblo, if_neg hnb,
        innerLoop_cons, if_neg hnblo, if_neg hnb]
      exact ih ys _ _ hrest

/-- One DP round preserves the diagonal invariant when `s` is matched against
itself over the full ranges.  For a popular character the round does nothing;
otherwise the indices below the diagonal are dominated by runs already seen,
the diagonal index `i` realises the chain value `npr s i` (possibly updating
the best, on the diagonal), and the indices above the diagonal are dominated
by the updated best. -/
theorem diagInv_step (s : PyStr) (i : Nat) (st : (Nat → Nat) × (Nat × Nat × Nat))
    (hin : i < s.length) (H : DiagInv s i st) :
    DiagInv s (i + 1) (dpRound s s 0 s.length st i) := by
  by_cases hpop : popularChar s (ch s i)
  · have hb : b2j s (ch s i) = [] := if_pos hpop
    simp only [dpRound]
    rw [hb, innerLoop_nil]
    refine ⟨H.diag, H.size_le, ?_, ?_, ?_, ?_⟩
    · intro r hr
      rcases (by omega : r < i ∨ r = i) with h | h
      · exact H.best_ge r h
      · rw [h, npr_of_pop hpop]; omega
    · intro j; exact Nat.zero_le _
    · intro j; exact Nat.zero_le _
    · intro r hr
      have hri : r = i := by omega
      subst hri
      rw [npr_of_pop hpop]
  · have hdec := b2j_self_decomp s i hin hpop
    simp only [dpRound]
    rw [hdec]
    set A := (List.range i).filter (fun j => ch s j == ch s i) with hAdef
    set B := (List.range' (i + 1) (s.length - (i + 1))).filter
      (fun j => ch s j == ch s i) with hBdef
    have hA : ∀ j ∈ A, j < i ∧ j < s.length ∧ ch s j = ch s i := by
      intro j hj
      rw [hAdef, List.mem_filter, List.mem_range] at hj
      exact ⟨hj.1, lt_trans hj.1 hin, by simpa using hj.2⟩
    have hB : ∀ j ∈ B, i < j ∧ j < s.length ∧ ch s j = ch s i := by
      intro j hj
      rw [hBdef, List.mem_filter, List.mem_range'_1] at hj
      exact ⟨by omega, by omega, by simpa using hj.2⟩
    have hchain : ∀ j, ch s j = ch s i → chainVal st.1 j ≤ npr s j := by
      intro j hcj
      have hnp : ¬ popularChar s (ch s j) := by rw [hcj]; exact hpop
      cases j with
      | zero => rw [npr_zero hnp]; simp [chainVal]
      | succ t =>
        have h1 := H.map_le_npr t
        rw [npr_succ hnp]
        simp only [chainVal, if_neg (Nat.succ_ne_zero t), Nat.succ_sub_one]
        omega
    have hchainPrev : ∀ j, ch s j = ch s i → chainVal st.1 j ≤ npr s i := by
      intro j hcj
      have hnpi : npr s i = prevNpr s i + 1 := npr_eq_prev hpop
      cases j with
      | zero => simp [chainVal]; omega
      | succ t =>
        have h1 := H.map_le_prev t
        simp only [chainVal, if_neg (Nat.succ_ne_zero t), Nat.succ_sub_one]
        omega
    have hApre : ∀ j ∈ A, 0 ≤ j ∧ j < s.length ∧ chainVal st.1 j ≤ st.2.2.2 := by
      intro j hj
      obtain ⟨hj1, hj2, hj3⟩ := hA j hj
      exact ⟨Nat.zero_le _, hj2, le_trans (hchain j hj3) (H.best_ge j hj1)⟩
    rw [innerLoop_append st.1 i 0 s.length A (i :: B) (fun _ => 0) st.2
      (fun j hj => (hA j hj).2.1)]
    obtain ⟨hbA, hmA⟩ := innerLoop_noupdate st.1 i 0 s.length A (fun _ => 0) st.2 hApre
    rw [hbA]
    have hni : ¬ i < 0 := by omega
    have hnn : ¬ s.length ≤ i := by omega
    rw [innerLoop_cons, if_neg hni, if_neg hnn]
    have hki : chainVal st.1 i = npr s i := by
      cases i with
      | zero => rw [npr_zero hpop]; simp [chainVal]
      | succ t =>
        rw [npr_succ hpop]
        simp only [chainVal, if_neg (Nat.succ_ne_zero t), Nat.succ_sub_one]
        rw [H.map_diag t rfl]
    set k := chainVal st.1 i with hkdef
    set best1 := (if st.2.2.2 < k then (i + 1 - k, i + 1 - k, k) else st.2) with hbest1
    have hb1diag : best1.1 = best1.2.1 := by
      rw [hbest1]; split
      · rfl
      · exact H.diag
    have hb1size : best1.1 + best1.2.2 ≤ s.length := by
      rw [hbest1]; split
      · show i + 1 - k + k ≤ s.length
        have h1 : k ≤ i + 1 := by rw [hki]; exact npr_le s i
        omega
      · exact H.size_le
    have hb1mono : st.2.2.2 ≤ best1.2.2 := by
      rw [hbest1]; split
      · show st.2.2.2 ≤ k
        omega
      · exact le_refl _
    have hb1ge : npr s i ≤ best1.2.2 := by
      rw [hbest1]; split
      · show npr s i ≤ k
        rw [hki]
      · show npr s i ≤ st.2.2.2
        rw [← hki]
        omega
    have hBpre : ∀ j ∈ B, 0 ≤ j ∧ j < s.length ∧ chainVal st.1 j ≤ best1.2.2 := by
      intro j hj
      obtain ⟨hj1, hj2, hj3⟩ := hB j hj
      exact ⟨Nat.zero_le _, hj2, le_trans (hchainPrev j hj3) hb1ge⟩
    obtain ⟨hbB, hmB⟩ := innerLoop_noupdate st.1 i 0 s.length B
      (fun j' => if j' = i then k else (innerLoop st.1 i 0 s.length A (fun _ => 0) st.2).1 j')
      best1 hBpre
    refine ⟨?_, ?_, ?_, ?_, ?_, ?_⟩
    · rw [hbB]; exact hb1diag
    · rw [hbB]; exact hb1size
    · rw [hbB]
      intro r hr
      rcases (by omega : r < i ∨ r = i) with h | h
      · exact le_trans (H.best_ge r h) hb1mono
      · rw [h]; exact hb1ge
    · intro j
      rcases hmB j with hc | hc
      · rw [hc]
        by_cases hji : j = i
        · subst hji
          rw [if_pos rfl, hki]
        · rw [if_neg hji]
          rcases hmA j with hd | hd
          · rw [hd]; exact Nat.zero_le _
          · rw [hd.1]; exact hchain j (hA j hd.2).2.2
      · rw [hc.1]; exact hchain j (hB j hc.2).2.2
    · intro j
      have hpn : prevNpr s (i + 1) = npr s i := rfl
      rw [hpn]
      rcases hmB j with hc | hc
      · rw [hc]
        by_cases hji : j = i
        · subst hji
          rw [if_pos rfl, hki]
        · rw [if_neg hji]
          rcases hmA j with hd | hd
          · rw [hd]; exact Nat.zero_le _
          · rw [hd.1]; exact hchainPrev j (hA j hd.2).2.2
      · rw [hc.1]; exact hchainPrev j (hB j hc.2).2.2
    · intro r hr
      have hri : r = i := by omega
      subst hri
      rcases hmB r with hc | hc
      · rw [hc, if_pos rfl, hki]
      · exact absurd (hB r hc.2).1 (by omega)

/-- Folding the DP rounds preserves the diagonal invariant. -/
theorem diagInv_fold (s : PyStr) :
    ∀ (cnt start : Nat) (st : (Nat → Nat) × (Nat × Nat × Nat)),
    start + cnt ≤ s.length → DiagInv s start st →
    DiagInv s (start + cnt)
      ((List.range' start cnt).foldl (dpRound s s 0 s.length) st)
  | 0, start, st, _, H => by simpa using H
  | cnt + 1, start, st, hle, H => by
    rw [List.range'_succ, List.foldl_cons]
    have hst := diagInv_step s start st (by omega) H
    have hrec := diagInv_fold s cnt (start + 1) (dpRound s s 0 s.length st start)
      (by omega) hst
    have harith : start + (cnt + 1) = start + 1 + cnt := by omega
    rw [harith]
    exact hrec

/-- The DP pass on `(s, s)` over the full ranges ends with a diagonal best
match that fits in the string. -/
theorem dpBest_self (s : PyStr) :
    ∃ p sz, (dpBest s s 0 s.length 0 s.length).2 = (p, p, sz) ∧
      p + sz ≤ s.length := by
  have H0 : DiagInv s 0 ((fun _ => 0 : Nat → Nat), (0, 0, 0)) := by
    refine ⟨rfl, by simp, ?_, ?_, ?_, ?_⟩
    · intro r hr; omega
    · intro j; exact Nat.zero_le _
    · intro j; exact Nat.zero_le _
    · intro r hr; omega
  have H := diagInv_fold s s.length 0 ((fun _ => 0 : Nat → Nat), (0, 0, 0))
    (by omega) H0
  rw [dpBest, Nat.sub_zero]
  set st := (List.range' 0 s.length).foldl (dpRound s s 0 s.length)
    ((fun _ => 0 : Nat → Nat), (0, 0, 0)) with hst
  refine ⟨st.2.1, st.2.2.2, ?_, ?_⟩
  · have hd : st.2.1 = st.2.2.1 := H.diag
    calc st.2 = (st.2.1, st.2.2.1, st.2.2.2) := rfl
    _ = (st.2.1, st.2.1, st.2.2.2) := by rw [hd]
  · exact H.size_le

/-- The left extension loop on a diagonal triple runs all the way to `0`. -/
theorem extLeft_self (a : PyStr) : ∀ (p sz : Nat),
    extLeft a a 0 0 p p sz = (0, 0, sz + p)
  | 0, sz => by simp [extLeft]
  | p + 1, sz => by
    rw [extLeft, if_pos ⟨Nat.succ_pos _, Nat.succ_pos _, by simp⟩]
    simp only [Nat.add_sub_cancel]
    rw [extLeft_self a p (sz + 1), show sz + 1 + p = sz + (p + 1) by omega]

/-- The right extension loop on `(0, 0, k)` with `k ≤ n` runs up to `n`. -/
theorem extRightAux_self (a : PyStr) (n : Nat) :
    ∀ (fuel k : Nat), fuel = n - k → k ≤ n →
    extRightAux a a n n 0 0 fuel k = n := by
  intro fuel
  induction fuel with
  | zero =>
    intro k hf hk
    rw [extRightAux]
    omega
  | succ f ih =>
    intro k hf hk
    have hkn : k < n := by omega
    rw [extRightAux, if_pos ⟨by omega, by omega, rfl⟩]
    exact ih (k + 1) (by omega) (by omega)

theorem extRight_self (a : PyStr) (k : Nat) (hk : k ≤ a.length) :
    extRight a a a.length a.length 0 0 k = a.length := by
  rw [extRight]
  exact extRightAux_self a a.length (a.length - (0 + k)) k (by omega) hk

/-- On `(s, s)` over the full ranges, `find_longest_match` returns the whole
diagonal: whatever (diagonal) best the DP pass produced, the two extension
loops stretch it to `(0, 0, len(s))`. -/
theorem flm_self (a : PyStr) :
    find_longest_match a a 0 a.length 0 a.length = (0, 0, a.length) := by
  obtain ⟨p, sz, hbest, hle⟩ := dpBest_self a
  simp only [find_longest_match]
  rw [hbest]
  simp only
  rw [extLeft_self a p sz]
  simp only
  rw [extRight_self a (sz + p) (by omega)]

theorem matchedChars_self (a : PyStr) : matchedChars a a = a.length := by
  rw [matchedChars]
  cases hn : a.length with
  | zero => rfl
  | succ n =>
    rw [show n + 1 + (n + 1) = (n + 1 + n) + 1 by omega, matchedCharsAux]
    have hf := flm_self a
    rw [hn] at hf
    rw [hf]
    simp only
    rw [if_neg (by omega : ¬ (n + 1 : Nat) = 0)]
    rw [if_neg (by omega : ¬ ((0 : Nat) < 0 ∧ (0 : Nat) < 0)),
      if_neg (by omega : ¬ ((0 : Nat) + (n + 1) < n + 1 ∧ (0 : Nat) + (n + 1) < n + 1))]

theorem ratio_self (a : PyStr) : ratio a a = 1 := by
  rw [ratio, matchedChars_self]
  by_cases h : a.length + a.length = 0
  · rw [if_pos h]
  · rw [if_neg h]
    have hl : a.length ≠ 0 := by omega
    have hq : ((a.length : ℚ) + a.length) ≠ 0 := by
      have : (0 : ℚ) < a.length := by exact_mod_cast Nat.pos_of_ne_zero hl
      positivity
    rw [div_eq_one_iff_eq hq]
    ring

/-- Reflexivity of `calculate_similarity`: lowering both copies of `s` yields
the same list, and `ratio` is `1` on equal lists. -/
theorem calculate_similarity_self (s : PyStr) : calculate_similarity s s = 1 :=
  ratio_self (lower s)

/-! ### Degenerate cases of the similarity primitive -/

theorem b2j_nil (c : Char) : b2j [] c = [] := by
  simp [b2j, positions, popularChar]

/-- When every `b2j` entry is empty, the DP rounds keep the initial best. -/
theorem foldl_dpRound_best (a b : PyStr) (blo bhi : Nat)
    (hempty : ∀ c, b2j b c = []) :
    ∀ (l : List Nat) (st : (Nat → Nat) × (Nat × Nat × Nat)),
    ((l.foldl (dpRound a b blo bhi) st)).2 = st.2
  | [], st => rfl
  | i :: l, st => by
    rw [List.foldl_cons]
    rw [foldl_dpRound_best a b blo bhi hempty l (dpRound a b blo bhi st i)]
    simp only [dpRound]
    rw [hempty (ch a i), innerLoop_nil]

theorem flm_nil_right (a : PyStr) :
    find_longest_match a [] 0 a.length 0 0 = (0, 0, 0) := by
  simp only [find_longest_match, dpBest]
  rw [foldl_dpRound_best a [] 0 0 b2j_nil]
  simp only
  have hL : extLeft a ([] : PyStr) 0 0 0 0 0 = (0, 0, 0) := rfl
  rw [hL]
  simp only
  rw [extRight]
  cases hf : a.length - (0 + 0) with
  | zero => rfl
  | succ f =>
    rw [extRightAux, if_neg (by omega : ¬ ((0:Nat) + 0 < a.length ∧ (0:Nat) + 0 < 0 ∧
      ch a (0 + 0) = ch ([] : PyStr) (0 + 0)))]

theorem flm_nil_left (b : PyStr) :
    find_longest_match [] b 0 0 0 b.length = (0, 0, 0) := by
  simp only [find_longest_match, dpBest, Nat.sub_zero]
  have h0 : List.range' 0 0 = ([] : List Nat) := rfl
  rw [h0]
  simp only [List.foldl_nil]
  have hL : extLeft ([] : PyStr) b 0 0 0 0 0 = (0, 0, 0) := rfl
  rw [hL]
  simp only
  rw [extRight]
  have : (0 : Nat) - (0 + 0) = 0 := rfl
  rw [this, extRightAux]

theorem matchedChars_nil_right (a : PyStr) : matchedChars a [] = 0 := by
  rw [matchedChars]
  cases hn : a.length with
  | zero => rfl
  | succ n =>
    simp only [List.length_nil, Nat.add_zero]
    rw [matchedCharsAux]
    have hf := flm_nil_right a
    rw [hn] at hf
    rw [hf]
    simp

theorem matchedChars_nil_left (b : PyStr) : matchedChars [] b = 0 := by
  rw [matchedChars]
  cases hn : b.length with
  | zero => rfl
  | succ n =>
    simp only [List.length_nil, Nat.zero_add]
    rw [matchedCharsAux]
    have hf := flm_nil_left b
    rw [hn] at hf
    rw [hf]
    simp

theorem ratio_nil_left {b : PyStr} (hb : b ≠ []) : ratio [] b = 0 := by
  have hlen : b.length ≠ 0 := by
    simpa using fun h => hb (List.length_eq_zero.mp h)
  rw [ratio, if_neg (by simpa using hlen), matchedChars_nil_left]
  simp

theorem ratio_nil_right {a : PyStr} (ha : a ≠ []) : ratio a [] = 0 := by
  have hlen : a.length ≠ 0 := by
    simpa using fun h => ha (List.length_eq_zero.mp h)
  rw [ratio, if_neg (by simpa using hlen), matchedChars_nil_right]
  simp

theorem ratio_nil_nil : ratio [] [] = 1 := rfl

/-! ### Lemmas about the cosine similarity -/

theorem dotProd_eq_zero_left : ∀ (v w : List Nat), (∀ x ∈ v, x = 0) →
    dotProd v w = 0
  | [], _, _ => rfl
  | _ :: _, [], _ => rfl
  | x :: xs, y :: ys, h => by
    rw [dotProd, h x (List.mem_cons_self _ _),
      dotProd_eq_zero_left xs ys (fun z hz => h z (List.mem_cons_of_mem _ hz))]
    simp

theorem dotProd_eq_zero_right : ∀ (v w : List Nat), (∀ x ∈ w, x = 0) →
    dotProd v w = 0
  | [], _, _ => rfl
  | _ :: _, [], _ => rfl
  | x :: xs, y :: ys, h => by
    rw [dotProd, h y (List.mem_cons_self _ _),
      dotProd_eq_zero_right xs ys (fun z hz => h z (List.mem_cons_of_mem _ hz))]
    simp

theorem countVec_nil_all_zero (voc : List (List Char)) :
    ∀ x ∈ countVec [] voc, x = 0 := by
  intro x hx
  simp only [countVec, List.mem_map] at hx
  obtain ⟨w, _, hw⟩ := hx
  simp [List.count_nil] at hw
  omega

/-- A zero vector on either side makes the (normalized) dot product `0`. -/
theorem cosineOfCounts_zero_left (v w : List Nat) (h : ∀ x ∈ v, x = 0) :
    cosineOfCounts v w = 0 := by
  rw [cosineOfCounts, dotProd_eq_zero_left v w h]
  simp

theorem cosineOfCounts_zero_right (v w : List Nat) (h : ∀ x ∈ w, x = 0) :
    cosineOfCounts v w = 0 := by
  rw [cosineOfCounts, dotProd_eq_zero_right v w h]
  simp

/-! ### Lemmas about the dataset evaluator -/

theorem processField_apply_ne (ge pe : Record)
    (st : (String → Metrics) × List (String × FieldVerdict))
    (fd : String × FieldDef) (f : String) (h : f ≠ fd.1) :
    (processField ge pe st fd).1 f = st.1 f := by
  simp only [processField]
  exact if_neg h

/-- `0.9 < similarity` holds whenever the two lowered strings are equal, so an
exact NER match is always also a near match. -/
theorem ner_exact_le_near (gt pred : PyStr) :
    (evaluate_ner_field gt pred).exact_match ≤ (evaluate_ner_field gt pred).near_match := by
  simp only [evaluate_ner_field]
  by_cases h : lower gt = lower pred
  · have hsim : calculate_similarity gt pred = 1 := by
      rw [calculate_similarity, h, ratio_self]
    rw [hsim, if_pos h, if_pos (by norm_num : (9 : ℚ) / 10 < 1)]
  · rw [if_neg h]
    exact Nat.zero_le _

theorem ner_near_le_one (gt pred : PyStr) :
    (evaluate_ner_field gt pred).near_match ≤ 1 := by
  simp only [evaluate_ner_field]
  split <;> omega

/-- The metric bump performed by one field iteration at its own field:
`exact` and `near` grow by `e ≤ nr ≤ 1` and `total` by one. -/
theorem processField_self (ge pe : Record)
    (st : (String → Metrics) × List (String × FieldVerdict))
    (fd : String × FieldDef) :
    ∃ e nr, e ≤ nr ∧ nr ≤ 1 ∧
      (processField ge pe st fd).1 fd.1 =
        ⟨(st.1 fd.1).exact + e, (st.1 fd.1).near + nr, (st.1 fd.1).total + 1⟩ := by
  by_cases h1 : fd.2.evaluation = "exact"
  · refine ⟨(evaluate_exact_field (dictGet ge fd.1) (dictGet pe fd.1)).exact_match,
      (evaluate_exact_field (dictGet ge fd.1) (dictGet pe fd.1)).exact_match,
      le_refl _, ?_, ?_⟩
    · simp only [evaluate_exact_field]
      split <;> omega
    · simp [processField, h1]
  · by_cases h2 : fd.2.evaluation = "ner"
    · refine ⟨(evaluate_ner_field (dictGet ge fd.1) (dictGet pe fd.1)).exact_match,
        (evaluate_ner_field (dictGet ge fd.1) (dictGet pe fd.1)).near_match,
        ner_exact_le_near _ _, ner_near_le_one _ _, ?_⟩
      simp [processField, h1, h2]
    · refine ⟨0, (evaluate_semantic_field (dictGet ge fd.1) (dictGet pe fd.1)).meets_threshold,
        Nat.zero_le _, ?_, ?_⟩
      · simp only [evaluate_semantic_field]
        split <;> omega
      · simp [processField, h1, h2]

/-- Fields not named in the list are untouched by the schema fold. -/
theorem foldl_processField_not_mem (ge pe : Record) :
    ∀ (fds : List (String × FieldDef))
      (st : (String → Metrics) × List (String × FieldVerdict)) (f : String),
    f ∉ fds.map Prod.fst →
    (fds.foldl (processField ge pe) st).1 f = st.1 f
  | [], st, f, _ => rfl
  | fd :: fds, st, f, h => by
    have hne : f ≠ fd.1 := by
      intro he
      exact h (by simp [he])
    rw [List.foldl_cons,
      foldl_processField_not_mem ge pe fds (processField ge pe st fd) f
        (fun hm => h (by simp; right; simpa using hm)),
      processField_apply_ne ge pe st fd f hne]

/-- A field named exactly once in the list gets exactly one metric bump from
the schema fold. -/
theorem foldl_processField_mem (ge pe : Record) :
    ∀ (fds : List (String × FieldDef))
      (st : (String → Metrics) × List (String × FieldVerdict))
      (fd : String × FieldDef),
    fd ∈ fds → (fds.map Prod.fst).Nodup →
    ∃ e nr, e ≤ nr ∧ nr ≤ 1 ∧
      (fds.foldl (processField ge pe) st).1 fd.1 =
        ⟨(st.1 fd.1).exact + e, (st.1 fd.1).near + nr, (st.1 fd.1).total + 1⟩
  | [], _, _, hmem, _ => absurd hmem (List.not_mem_nil _)
  | fd0 :: fds, st, fd, hmem, hnd => by
    rw [List.map_cons, List.nodup_cons] at hnd
    rcases List.mem_cons.mp hmem with heq | htail
    · subst heq
      obtain ⟨e, nr, he, hnr, hbump⟩ := processField_self ge pe st fd
      refine ⟨e, nr, he, hnr, ?_⟩
      rw [List.foldl_cons,
        foldl_processField_not_mem ge pe fds (processField ge pe st fd) fd.1 hnd.1,
        hbump]
    · have hne : fd.1 ≠ fd0.1 := by
        intro he
        exact hnd.1 (he ▸ List.mem_map_of_mem Prod.fst htail)
      obtain ⟨e, nr, he, hnr, hbump⟩ :=
        foldl_processField_mem ge pe fds (processField ge pe st fd0) fd htail hnd.2
      refine ⟨e, nr, he, hnr, ?_⟩
      rw [List.foldl_cons, hbump, processField_apply_ne ge pe st fd0 fd.1 hne]

theorem fieldNames_nodup : (FIELD_DEFINITIONS.map Prod.fst).Nodup := by decide

/-- One record pair bumps every schema field's accumulator by
`(e, nr, 1)` with `e ≤ nr ≤ 1`. -/
theorem processEntry_metrics (fm : String → Metrics) (ge pe : Record)
    (fd : String × FieldDef) (hmem : fd ∈ FIELD_DEFINITIONS) :
    ∃ e nr, e ≤ nr ∧ nr ≤ 1 ∧
      (processEntry fm ge pe).1 fd.1 =
        ⟨(fm fd.1).exact + e, (fm fd.1).near + nr, (fm fd.1).total + 1⟩ :=
  foldl_processField_mem ge pe FIELD_DEFINITIONS (fm, []) fd hmem fieldNames_nodup

/-- The loop invariant of `evaluate_dataset`: every field accumulator counts
one `total` per processed pair and keeps `exact ≤ near ≤ total`. -/
theorem foldl_runStep_inv :
    ∀ (pairs : List (Record × Record))
      (st : (String → Metrics) × List (List (String × FieldVerdict))),
    (∀ fd ∈ FIELD_DEFINITIONS, (st.1 fd.1).total = st.2.length ∧
      (st.1 fd.1).exact ≤ (st.1 fd.1).near ∧ (st.1 fd.1).near ≤ (st.1 fd.1).total) →
    ∀ fd ∈ FIELD_DEFINITIONS,
      ((pairs.foldl runStep st).1 fd.1).total = (pairs.foldl runStep st).2.length ∧
      ((pairs.foldl runStep st).1 fd.1).exact ≤ ((pairs.foldl runStep st).1 fd.1).near ∧
      ((pairs.foldl runStep st).1 fd.1).near ≤ ((pairs.foldl runStep st).1 fd.1).total
  | [], st, hinv, fd, hmem => hinv fd hmem
  | p :: pairs, st, hinv, fd, hmem => by
    rw [List.foldl_cons]
    refine foldl_runStep_inv pairs (runStep st p) ?_ fd hmem
    intro fd' hmem'
    obtain ⟨e, nr, he, hnr, hbump⟩ := processEntry_metrics st.1 p.1 p.2 fd' hmem'
    obtain ⟨ht, h1, h2⟩ := hinv fd' hmem'
    have hsnd : (runStep st p).2.length = st.2.length + 1 := by
      simp [runStep]
    have hfst : (runStep st p).1 fd'.1 =
        ⟨(st.1 fd'.1).exact + e, (st.1 fd'.1).near + nr, (st.1 fd'.1).total + 1⟩ := by
      simp only [runStep]
      exact hbump
    rw [hsnd, hfst]
    refine ⟨by simpa using ht, by simpa using Nat.add_le_add h1 he, ?_⟩
    simp only
    omega

theorem foldl_runStep_length :
    ∀ (pairs : List (Record × Record))
      (st : (String → Metrics) × List (List (String × FieldVerdict))),
    (pairs.foldl runStep st).2.length = st.2.length + pairs.length
  | [], st => by simp
  | p :: pairs, st => by
    rw [List.foldl_cons, foldl_runStep_length pairs (runStep st p)]
    simp [runStep]
    omega

theorem runLoop_length (pairs : List (Record × Record)) :
    (runLoop pairs).2.length = pairs.length := by
  rw [runLoop, foldl_runStep_length]
  simp

theorem runLoop_inv (pairs : List (Record × Record))
    (fd : String × FieldDef) (hmem : fd ∈ FIELD_DEFINITIONS) :
    ((runLoop pairs).1 fd.1).total = pairs.length ∧
    ((runLoop pairs).1 fd.1).exact ≤ ((runLoop pairs).1 fd.1).near ∧
    ((runLoop pairs).1 fd.1).near ≤ ((runLoop pairs).1 fd.1).total := by
  have h := foldl_runStep_inv pairs ((fun _ => ⟨0, 0, 0⟩ : String → Metrics), [])
    (fun fd' _ => by simp) fd hmem
  rw [runLoop]
  rcases h with ⟨h1, h2, h3⟩
  exact ⟨by rw [h1, foldl_runStep_length]; simp, h2, h3⟩

/-! ### Lemmas about the aggregate pass -/

theorem aggregateField_err (d : FieldDef) (m : Metrics) (ht : m.total = 0) :
    aggregateField d m = .error "ZeroDivisionError" := by
  rw [aggregateField]
  split
  · rw [pyDiv, if_pos ht]
  · rw [pyDiv, if_pos ht]

theorem aggregateField_ok_exactNer (d : FieldDef) (m : Metrics)
    (h : d.evaluation = "exact" ∨ d.evaluation = "ner") (ht : ¬ m.total = 0) :
    aggregateField d m = .ok (.exactNer (aggPrecision m) (aggRecall m)
      (calculate_f1_score (aggPrecision m) (aggRecall m)) ((m.exact : ℚ) / m.total)) := by
  rw [aggregateField, if_pos h, pyDiv, if_neg ht]

theorem aggregateField_ok_semantic (d : FieldDef) (m : Metrics)
    (h : ¬ (d.evaluation = "exact" ∨ d.evaluation = "ner")) (ht : ¬ m.total = 0) :
    aggregateField d m = .ok (.semanticRate ((m.near : ℚ) / m.total)) := by
  rw [aggregateField, if_neg h, pyDiv, if_neg ht]

theorem except_bind_ok {α β : Type} (a : α) (g : α → Except String β) :
    ((Except.ok a : Except String α) >>= g) = g a := rfl

theorem except_bind_err {α β : Type} (e : String) (g : α → Except String β) :
    ((Except.error e : Except String α) >>= g) = .error e := rfl

/-- Successful `mapM` over `Except`: the outputs are in positionwise
correspondence with the inputs (stated member-wise, both directions). -/
theorem mapM_ok_mem {α β : Type} (f : α → Except String β) :
    ∀ (l : List α) (ys : List β), l.mapM f = .ok ys →
    (∀ y ∈ ys, ∃ x ∈ l, f x = .ok y) ∧ (∀ x ∈ l, ∃ y ∈ ys, f x = .ok y)
  | [], ys, h => by
    simp only [List.mapM_nil] at h
    have hys : ys = [] := by
      have : (Except.ok [] : Except String (List β)) = .ok ys := h
      simpa using this.symm
    subst hys
    simp
  | x :: xs, ys, h => by
    rw [List.mapM_cons] at h
    cases hfx : f x with
    | error e =>
      rw [hfx, except_bind_err] at h
      exact absurd h (by simp)
    | ok y =>
      rw [hfx, except_bind_ok] at h
      cases hxs : xs.mapM f with
      | error e =>
        rw [hxs, except_bind_err] at h
        exact absurd h (by simp)
      | ok ys' =>
        rw [hxs, except_bind_ok] at h
        have hys : ys = y :: ys' := by
          have : (Except.ok (y :: ys') : Except String (List β)) = .ok ys := h
          simpa using this.symm
        subst hys
        obtain ⟨h1, h2⟩ := mapM_ok_mem f xs ys' hxs
        constructor
        · intro z hz
          rcases List.mem_cons.mp hz with hz | hz
          · exact ⟨x, List.mem_cons_self _ _, hz ▸ hfx⟩
          · obtain ⟨x', hx', hfx'⟩ := h1 z hz
            exact ⟨x', List.mem_cons_of_mem _ hx', hfx'⟩
        · intro x' hx'
          rcases List.mem_cons.mp hx' with hx' | hx'
          · exact ⟨y, List.mem_cons_self _ _, hx' ▸ hfx⟩
          · obtain ⟨y', hy', hfy'⟩ := h2 x' hx'
            exact ⟨y', List.mem_cons_of_mem _ hy', hfy'⟩

/-- `mapM` over `Except` succeeds when every element does. -/
theorem mapM_ok_all {α β : Type} (f : α → Except String β) :
    ∀ (l : List α), (∀ x ∈ l, ∃ y, f x = .ok y) → ∃ ys, l.mapM f = .ok ys
  | [], _ => ⟨[], rfl⟩
  | x :: xs, h => by
    obtain ⟨y, hy⟩ := h x (List.mem_cons_self _ _)
    obtain ⟨ys, hys⟩ := mapM_ok_all f xs (fun z hz => h z (List.mem_cons_of_mem _ hz))
    refine ⟨y :: ys, ?_⟩
    rw [List.mapM_cons, hy, except_bind_ok, hys, except_bind_ok]
    rfl

/-- Every entry of a successful aggregate pass comes from `aggregateField` on
the field's accumulator, and every schema field contributes an entry. -/
theorem aggregatePass_mem (fm : String → Metrics)
    (agg : List (String × AggregateMetric)) (hok : aggregatePass fm = .ok agg) :
    (∀ fname am, (fname, am) ∈ agg → ∃ fd ∈ FIELD_DEFINITIONS, fd.1 = fname ∧
      aggregateField fd.2 (fm fd.1) = .ok am) ∧
    (∀ fd ∈ FIELD_DEFINITIONS, ∃ am, (fd.1, am) ∈ agg ∧
      aggregateField fd.2 (fm fd.1) = .ok am) := by
  rw [aggregatePass] at hok
  obtain ⟨h1, h2⟩ := mapM_ok_mem _ FIELD_DEFINITIONS agg hok
  constructor
  · intro fname am hmem
    obtain ⟨fd, hfd, hfeq⟩ := h1 (fname, am) hmem
    cases hagg : aggregateField fd.2 (fm fd.1) with
    | error e =>
      rw [hagg] at hfeq
      exact absurd hfeq (by simp)
    | ok am' =>
      rw [hagg] at hfeq
      simp only at hfeq
      have : fd.1 = fname ∧ am' = am := by
        have h := hfeq
        simp at h
        exact h
      exact ⟨fd, hfd, this.1, this.2 ▸ hagg⟩
  · intro fd hfd
    obtain ⟨y, hy, hfeq⟩ := h2 fd hfd
    cases hagg : aggregateField fd.2 (fm fd.1) with
    | error e =>
      rw [hagg] at hfeq
      exact absurd hfeq (by simp)
    | ok am' =>
      rw [hagg] at hfeq
      simp only at hfeq
      have hya : y = (fd.1, am') := by
        have h := hfeq
        simp at h
        exact h.symm
      refine ⟨am', ?_, rfl⟩
      rw [← hya]
      exact hy

theorem aggregatePass_err (fm : String → Metrics)
    (h : (fm "Contract Address").total = 0) :
    aggregatePass fm = .error "ZeroDivisionError" := by
  rw [aggregatePass, FIELD_DEFINITIONS, List.mapM_cons]
  have he : aggregateField (⟨"rich_address", true, "exact"⟩ : FieldDef)
      (fm "Contract Address") = .error "ZeroDivisionError" :=
    aggregateField_err _ _ h
  simp only [he]
  rfl

theorem aggregatePass_ok (fm : String → Metrics)
    (h : ∀ fd ∈ FIELD_DEFINITIONS, ¬ (fm fd.1).total = 0) :
    ∃ agg, aggregatePass fm = .ok agg := by
  rw [aggregatePass]
  apply mapM_ok_all
  intro fd hfd
  by_cases he : fd.2.evaluation = "exact" ∨ fd.2.evaluation = "ner"
  · exact ⟨(fd.1, .exactNer (aggPrecision (fm fd.1)) (aggRecall (fm fd.1))
      (calculate_f1_score (aggPrecision (fm fd.1)) (aggRecall (fm fd.1)))
      (((fm fd.1).exact : ℚ) / (fm fd.1).total)),
      by rw [aggregateField_ok_exactNer fd.2 _ he (h fd hfd)]⟩
  · exact ⟨(fd.1, .semanticRate (((fm fd.1).near : ℚ) / (fm fd.1).total)),
      by rw [aggregateField_ok_semantic fd.2 _ he (h fd hfd)]⟩

/-- Shape of the components of a successful `exact`/`ner` aggregate entry. -/
theorem aggregateField_ok_shape (d : FieldDef) (m : Metrics) (p r f e : ℚ)
    (hok : aggregateField d m = .ok (.exactNer p r f e)) :
    p = aggPrecision m ∧ r = aggRecall m ∧
    f = calculate_f1_score (aggPrecision m) (aggRecall m) ∧
    e = (m.exact : ℚ) / m.total ∧ ¬ m.total = 0 := by
  by_cases ht : m.total = 0
  · rw [aggregateField_err d m ht] at hok
    exact absurd hok (by simp)
  · rw [aggregateField] at hok
    split at hok
    · rw [pyDiv, if_neg ht] at hok
      simp only [Except.ok.injEq, AggregateMetric.exactNer.injEq] at hok
      obtain ⟨hp, hr, hf, he⟩ := hok
      exact ⟨hp.symm, hr.symm, hf.symm, he.symm, ht⟩
    · rw [pyDiv, if_neg ht] at hok
      simp at hok

/-! ### Lemmas about `evaluate_dataset` -/

theorem evaluate_dataset_eq_ok (ground_truth predictions : List Record)
    (rep : Report) (h : evaluate_dataset ground_truth predictions = .ok rep) :
    rep.individual_results = (runLoop (ground_truth.zip predictions)).2 ∧
    aggregatePass (runLoop (ground_truth.zip predictions)).1 =
      .ok rep.aggregate_results := by
  rw [evaluate_dataset] at h
  cases hagg : aggregatePass (runLoop (ground_truth.zip predictions)).1 with
  | error e =>
    rw [hagg] at h
    exact absurd h (by simp)
  | ok agg =>
    rw [hagg] at h
    simp only [Except.ok.injEq] at h
    have hrep : rep = ⟨(runLoop (ground_truth.zip predictions)).2, agg⟩ := h.symm
    subst hrep
    exact ⟨rfl, rfl⟩

theorem evaluate_dataset_ok_of_zip_ne_nil (ground_truth predictions : List Record)
    (h : ground_truth.zip predictions ≠ []) :
    ∃ rep, evaluate_dataset ground_truth predictions = .ok rep := by
  have hlen : (ground_truth.zip predictions).length ≠ 0 := by
    simpa using fun he => h (List.length_eq_zero.mp he)
  have htot : ∀ fd ∈ FIELD_DEFINITIONS,
      ¬ ((runLoop (ground_truth.zip predictions)).1 fd.1).total = 0 := by
    intro fd hfd
    have := (runLoop_inv (ground_truth.zip predictions) fd hfd).1
    omega
  obtain ⟨agg, hagg⟩ := aggregatePass_ok (runLoop (ground_truth.zip predictions)).1 htot
  refine ⟨⟨(runLoop (ground_truth.zip predictions)).2, agg⟩, ?_⟩
  rw [evaluate_dataset, hagg]

/-- `zip` only sees the shortest paired prefix of its arguments. -/
theorem zip_take_min {α β : Type} : ∀ (l1 : List α) (l2 : List β),
    l1.zip l2 = (l1.take (min l1.length l2.length)).zip
      (l2.take (min l1.length l2.length))
  | [], l2 => by simp
  | x :: xs, [] => by simp
  | x :: xs, y :: ys => by
    have hmin : min (x :: xs).length (y :: ys).length = min xs.length ys.length + 1 := by
      simp only [List.length_cons]
      omega
    rw [hmin, List.take_succ_cons, List.take_succ_cons, List.zip_cons_cons,
      List.zip_cons_cons, ← zip_take_min xs ys]

theorem length_zip_min {α β : Type} (l1 : List α) (l2 : List β) :
    (l1.zip l2).length = min l1.length l2.length := by
  rw [List.length_zip]

/-! ## Claims -/

/-- **C1.**  For every field whose strategy is Exact (`"exact"`) or NearMatch
(`"ner"`), the aggregate pass of `evaluate_dataset` computes
`precision = exact_count/total_count` and `recall = near_count/total_count`
(both `0` when `total_count` is `0`, via the guarded conditional
expressions), and `f1_score = 2*precision*recall/(precision+recall)`, defined
as exactly `0` whenever `precision + recall = 0`; the values appearing in a
returned report's `aggregate_results` are exactly these. -/
theorem c1_aggregate_metrics :
    (∀ m : Metrics,
      aggPrecision m = (if m.total = 0 then 0 else (m.exact : ℚ) / m.total) ∧
      aggRecall m = (if m.total = 0 then 0 else (m.near : ℚ) / m.total)) ∧
    (∀ p r : ℚ,
      calculate_f1_score p r = if p + r = 0 then 0 else 2 * p * r / (p + r)) ∧
    (∀ (ground_truth predictions : List Record) (rep : Report)
      (field : String) (defn : FieldDef),
      evaluate_dataset ground_truth predictions = .ok rep →
      (field, defn) ∈ FIELD_DEFINITIONS →
      (defn.evaluation = "exact" ∨ defn.evaluation = "ner") →
      ∃ p r f e,
        (field, AggregateMetric.exactNer p r f e) ∈ rep.aggregate_results ∧
        p = aggPrecision (runMetrics ground_truth predictions field) ∧
        r = aggRecall (runMetrics ground_truth predictions field) ∧
        f = calculate_f1_score p r) := by
  refine ⟨?_, ?_, ?_⟩
  · intro m
    constructor
    · rw [aggPrecision]
      rcases Nat.eq_zero_or_pos m.total with h | h
      · rw [if_neg (by omega), if_pos h]
      · rw [if_pos h, if_neg (by omega)]
    · rw [aggRecall]
      rcases Nat.eq_zero_or_pos m.total with h | h
      · rw [if_neg (by omega), if_pos h]
      · rw [if_pos h, if_neg (by omega)]
  · intro p r
    rw [calculate_f1_score]
    split
    · rfl
    · ring
  · intro gt preds rep field defn hok hmem hstrat
    obtain ⟨hind, hagg⟩ := evaluate_dataset_eq_ok gt preds rep hok
    obtain ⟨_, hcomplete⟩ := aggregatePass_mem _ _ hagg
    obtain ⟨am, hammem, hamok⟩ := hcomplete (field, defn) hmem
    have htot : ¬ ((runLoop (gt.zip preds)).1 field).total = 0 := by
      intro h0
      rw [aggregateField_err defn _ h0] at hamok
      exact absurd hamok (by simp)
    rw [aggregateField_ok_exactNer defn ((runLoop (gt.zip preds)).1 field)
      hstrat htot] at hamok
    have ham : am = .exactNer (aggPrecision ((runLoop (gt.zip preds)).1 field))
        (aggRecall ((runLoop (gt.zip preds)).1 field))
        (calculate_f1_score (aggPrecision ((runLoop (gt.zip preds)).1 field))
          (aggRecall ((runLoop (gt.zip preds)).1 field)))
        ((((runLoop (gt.zip preds)).1 field).exact : ℚ)
          / ((runLoop (gt.zip preds)).1 field).total) := by
      simpa using hamok.symm
    exact ⟨_, _, _, _, ham ▸ hammem, rfl, rfl, rfl⟩

/-- Witness for C1: the worked `8/10/10` accumulator of the spec's
testable-property list, the f1 formula, and a concrete successful run. -/
theorem c1_aggregate_metrics_witness :
    (aggPrecision ⟨8, 10, 10⟩ = if (10 : Nat) = 0 then 0 else (8 : ℚ) / 10) ∧
    (calculate_f1_score (4 / 5) 1 =
      if (4 / 5 : ℚ) + 1 = 0 then 0 else 2 * (4 / 5) * 1 / (4 / 5 + 1)) ∧
    (∃ rep, evaluate_dataset [[]] [[]] = .ok rep ∧
      ∃ p r f e,
        ("Contract Address", AggregateMetric.exactNer p r f e) ∈ rep.aggregate_results ∧
        p = aggPrecision (runMetrics [[]] [[]] "Contract Address") ∧
        r = aggRecall (runMetrics [[]] [[]] "Contract Address") ∧
        f = calculate_f1_score p r) := by
  refine ⟨(c1_aggregate_metrics.1 ⟨8, 10, 10⟩).1, c1_aggregate_metrics.2.1 (4 / 5) 1, ?_⟩
  obtain ⟨rep, hrep⟩ := evaluate_dataset_ok_of_zip_ne_nil [[]] [[]] (by simp)
  exact ⟨rep, hrep, c1_aggregate_metrics.2.2 [[]] [[]] rep "Contract Address"
    ⟨"rich_address", true, "exact"⟩ hrep (by decide) (Or.inl rfl)⟩

/-- **C2.**  `evaluate_dataset` processes exactly
`min(len(ground_truth), len(predictions))` record pairs: the main loop
produces one verdict list per zipped pair, the whole function only depends on
the shortest paired prefix of its inputs (trailing records contribute
nothing), and a returned report's `individual_results` has length equal to
that minimum. -/
theorem c2_paired_truncation (ground_truth predictions : List Record) :
    (runLoop (ground_truth.zip predictions)).2.length
        = min ground_truth.length predictions.length ∧
    evaluate_dataset ground_truth predictions =
      evaluate_dataset
        (ground_truth.take (min ground_truth.length predictions.length))
        (predictions.take (min ground_truth.length predictions.length)) ∧
    ∀ rep, evaluate_dataset ground_truth predictions = .ok rep →
      rep.individual_results.length = min ground_truth.length predictions.length := by
  refine ⟨?_, ?_, ?_⟩
  · rw [runLoop_length, length_zip_min]
  · simp only [evaluate_dataset]
    rw [← zip_take_min]
  · intro rep hrep
    rw [(evaluate_dataset_eq_ok _ _ rep hrep).1, runLoop_length, length_zip_min]

/-- Witness for C2: one ground-truth record against two prediction records
processes exactly one pair. -/
theorem c2_paired_truncation_witness :
    Except.map (fun rep => rep.individual_results.length)
      (evaluate_dataset [[]] [[], []]) = .ok 1 := by
  obtain ⟨rep, hrep⟩ := evaluate_dataset_ok_of_zip_ne_nil [[]] [[], []] (by simp)
  have h := (c2_paired_truncation [[]] [[], []]).2.2 rep hrep
  rw [hrep]
  simp only [Except.map]
  rw [h]
  simp

/-- **C3.**  Throughout the main loop of `evaluate_dataset` (i.e. after the
loop has consumed any list of record pairs), every schema field's accumulator
has `total = number of pairs processed` and `exact ≤ near ≤ total`; in
particular this holds for the Exact and NearMatch strategies, which track
both counters.  (For the NER chain, an exact match forces similarity `1 >
0.9`, hence a near match.) -/
theorem c3_accumulator_invariant (pairs : List (Record × Record))
    (field : String) (defn : FieldDef)
    (hmem : (field, defn) ∈ FIELD_DEFINITIONS) :
    ((runLoop pairs).1 field).total = pairs.length ∧
    ((runLoop pairs).1 field).exact ≤ ((runLoop pairs).1 field).near ∧
    ((runLoop pairs).1 field).near ≤ ((runLoop pairs).1 field).total :=
  runLoop_inv pairs (field, defn) hmem

/-- Witness for C3 after one record pair on the NER field `"Project Name"`. -/
theorem c3_accumulator_invariant_witness :
    ((runLoop [([], [])]).1 "Project Name").total = 1 ∧
    ((runLoop [([], [])]).1 "Project Name").exact
        ≤ ((runLoop [([], [])]).1 "Project Name").near ∧
    ((runLoop [([], [])]).1 "Project Name").near
        ≤ ((runLoop [([], [])]).1 "Project Name").total :=
  c3_accumulator_invariant [([], [])] "Project Name" ⟨"text", true, "ner"⟩ (by decide)

/-- **C4.**  The Exact comparator returns `exact_match = 1` iff the lowered
strings are equal; the NearMatch comparator returns that same `exact_match`
together with `near_match = 1` exactly when `sequence_similarity > 0.9`
(strict); the Semantic comparator returns `meets_threshold = 1` exactly when
`bag_of_words_cosine_similarity ≥ 0.5` (inclusive) — and its verdict type
`SemanticVerdict` carries no `exact_match` field at all. -/
theorem c4_field_comparators (gt pred : PyStr) :
    ((evaluate_exact_field gt pred).exact_match
        = if lower gt = lower pred then 1 else 0) ∧
    ((evaluate_ner_field gt pred).exact_match
        = (evaluate_exact_field gt pred).exact_match) ∧
    ((evaluate_ner_field gt pred).similarity = calculate_similarity gt pred) ∧
    ((evaluate_ner_field gt pred).near_match = 1 ↔
      (9 : ℚ) / 10 < calculate_similarity gt pred) ∧
    ((evaluate_semantic_field gt pred).meets_threshold = 1 ↔
      (1 : ℝ) / 2 ≤ calculate_cosine_similarity gt pred) := by
  refine ⟨rfl, rfl, rfl, ?_, ?_⟩
  · show (if (9 : ℚ) / 10 < calculate_similarity gt pred then 1 else 0) = 1 ↔ _
    by_cases hc : (9 : ℚ) / 10 < calculate_similarity gt pred
    · rw [if_pos hc]
      exact ⟨fun _ => hc, fun _ => rfl⟩
    · rw [if_neg hc]
      exact ⟨fun h0 => absurd h0 (by omega), fun hcc => absurd hcc hc⟩
  · show (if (1 : ℝ) / 2 ≤ calculate_cosine_similarity gt pred then 1 else 0) = 1 ↔ _
    by_cases hc : (1 : ℝ) / 2 ≤ calculate_cosine_similarity gt pred
    · rw [if_pos hc]
      exact ⟨fun _ => hc, fun _ => rfl⟩
    · rw [if_neg hc]
      exact ⟨fun h0 => absurd h0 (by omega), fun hcc => absurd hcc hc⟩

/-- **C5.**  `sequence_similarity(s, s) = 1` for every string `s`: the DP
pass of `find_longest_match` always ends with a best match on the diagonal
(even under the autojunk heuristic), and the extension loops stretch any
diagonal match of a string against itself to the full string. -/
theorem c5_sequence_similarity_reflexive (s : PyStr) :
    calculate_similarity s s = 1 :=
  calculate_similarity_self s

/-- **C6 counterexample.**  `sequence_similarity` is not symmetric:
on `("xyfwuv", "uvqrxyw")` the matcher finds the blocks `"xy"` and `"w"`
(ratio `6/13`), but with the arguments swapped it finds only `"uv"`
(ratio `4/13`), because `get_matching_blocks` discards the region that held
the extra match. -/
theorem c6_sequence_similarity_not_symmetric :
    calculate_similarity ['x', 'y', 'f', 'w', 'u', 'v']
        ['u', 'v', 'q', 'r', 'x', 'y', 'w'] ≠
      calculate_similarity ['u', 'v', 'q', 'r', 'x', 'y', 'w']
        ['x', 'y', 'f', 'w', 'u', 'v'] := by
  have h1 : matchedChars (lower ['x', 'y', 'f', 'w', 'u', 'v'])
      (lower ['u', 'v', 'q', 'r', 'x', 'y', 'w']) = 3 := by decide
  have h2 : matchedChars (lower ['u', 'v', 'q', 'r', 'x', 'y', 'w'])
      (lower ['x', 'y', 'f', 'w', 'u', 'v']) = 2 := by decide
  simp only [calculate_similarity, ratio, h1, h2]
  norm_num [lower]

/-- **C6 amended.**  `sequence_similarity` is not symmetric in general (see
the counterexample); symmetry does hold in the degenerate cases: equal
arguments, or either argument empty. -/
theorem c6_sequence_similarity_symmetric_degenerate (a b : PyStr)
    (h : a = b ∨ a = [] ∨ b = []) :
    calculate_similarity a b = calculate_similarity b a := by
  rcases h with h | h | h
  · subst h; rfl
  · subst h
    rcases eq_or_ne b [] with hb | hb
    · subst hb; rfl
    · have hlb : lower b ≠ [] := by
        simp only [lower, ne_eq, List.map_eq_nil_iff]
        exact hb
      show ratio (lower []) (lower b) = ratio (lower b) (lower [])
      rw [show lower ([] : PyStr) = [] from rfl, ratio_nil_left hlb,
        ratio_nil_right hlb]
  · subst h
    rcases eq_or_ne a [] with ha | ha
    · subst ha; rfl
    · have hla : lower a ≠ [] := by
        simp only [lower, ne_eq, List.map_eq_nil_iff]
        exact ha
      show ratio (lower a) (lower []) = ratio (lower []) (lower a)
      rw [show lower ([] : PyStr) = [] from rfl, ratio_nil_left hla,
        ratio_nil_right hla]

/-- Witness for the amended C6: one nonempty string against the empty one. -/
theorem c6_sequence_similarity_symmetric_degenerate_witness :
    ((['a'] : PyStr) = [] ∨ (['a'] : PyStr) = [] ∨ ([] : PyStr) = []) ∧
    calculate_similarity ['a'] [] = calculate_similarity [] ['a'] :=
  ⟨Or.inr (Or.inr rfl),
    c6_sequence_similarity_symmetric_degenerate ['a'] [] (Or.inr (Or.inr rfl))⟩

/-- **C7.**  `sequence_similarity` returns `1` when both inputs are empty
(`_calculate_ratio` returns `1.0` on total length `0`) and `0` when exactly
one input is empty (no matching blocks, positive total length). -/
theorem c7_empty_string_similarity :
    calculate_similarity [] [] = 1 ∧
    ∀ s : PyStr, s ≠ [] →
      calculate_similarity [] s = 0 ∧ calculate_similarity s [] = 0 := by
  refine ⟨rfl, ?_⟩
  intro s hs
  have hls : lower s ≠ [] := by
    simp only [lower, ne_eq, List.map_eq_nil_iff]
    exact hs
  constructor
  · show ratio (lower []) (lower s) = 0
    rw [show lower ([] : PyStr) = [] from rfl]
    exact ratio_nil_left hls
  · show ratio (lower s) (lower []) = 0
    rw [show lower ([] : PyStr) = [] from rfl]
    exact ratio_nil_right hls

/-- Witness for C7 on the one-character string `"a"`. -/
theorem c7_empty_string_similarity_witness :
    (['a'] : PyStr) ≠ [] ∧
    calculate_similarity [] ['a'] = 0 ∧ calculate_similarity ['a'] [] = 0 :=
  ⟨by decide, c7_empty_string_similarity.2 ['a'] (by decide)⟩

/-- **C8.**  `bag_of_words_cosine_similarity` never propagates an error (it
is a total function in this embedding, the only Python failure path being
the caught empty-vocabulary `ValueError`), and whenever either string yields
no tokens after tokenization it returns exactly `0`: with an empty
vocabulary the caught exception yields `0.0`, and with one empty token
stream the zero count vector makes the (zero-norm-guarded) cosine `0.0`. -/
theorem c8_cosine_no_tokens_zero (text1 text2 : PyStr)
    (h : tokens (lower text1) = [] ∨ tokens (lower text2) = []) :
    calculate_cosine_similarity text1 text2 = 0 := by
  rw [calculate_cosine_similarity]
  by_cases hb : tokens (lower text1) = [] ∧ tokens (lower text2) = []
  · rw [if_pos hb]
  · rw [if_neg hb]
    rcases h with h1 | h2
    · apply cosineOfCounts_zero_left
      rw [h1]
      exact countVec_nil_all_zero _
    · apply cosineOfCounts_zero_right
      rw [h2]
      exact countVec_nil_all_zero _

/-- Witness for C8: the empty string against `"hi"`. -/
theorem c8_cosine_no_tokens_zero_witness :
    (tokens (lower []) = [] ∨ tokens (lower ['h', 'i']) = []) ∧
    calculate_cosine_similarity [] ['h', 'i'] = 0 :=
  ⟨Or.inl (by decide), c8_cosine_no_tokens_zero [] ['h', 'i'] (Or.inl (by decide))⟩

/-- **C9.**  When `min(len(ground_truth), len(predictions)) = 0` the loop
processes nothing, every field accumulator keeps `total = 0`, and — although
`precision` and `recall` are guarded — the unguarded dict-literal division
`metrics["exact"] / metrics["total"]` of the aggregate pass raises
`ZeroDivisionError`, so `evaluate_dataset` returns no report. -/
theorem c9_empty_input_division_error (ground_truth predictions : List Record)
    (h : min ground_truth.length predictions.length = 0) :
    (∀ field, (runMetrics ground_truth predictions field).total = 0) ∧
    evaluate_dataset ground_truth predictions = .error "ZeroDivisionError" := by
  have hzip : ground_truth.zip predictions = [] := by
    apply List.length_eq_zero.mp
    rw [length_zip_min, h]
  constructor
  · intro field
    rw [runMetrics, hzip]
    rfl
  · rw [evaluate_dataset, hzip]
    rw [aggregatePass_err _ (show ((runLoop ([] : List (Record × Record))).1
      "Contract Address").total = 0 from rfl)]

/-- Witness for C9 on two empty datasets. -/
theorem c9_empty_input_division_error_witness :
    min (List.length ([] : List Record)) (List.length ([] : List Record)) = 0 ∧
    (runMetrics [] [] "Contract Address").total = 0 ∧
    evaluate_dataset [] [] = .error "ZeroDivisionError" :=
  ⟨rfl, (c9_empty_input_division_error [] [] rfl).1 "Contract Address",
    (c9_empty_input_division_error [] [] rfl).2⟩

end ScoutEval
